import Mathlib

/-! Verification of `translate_requirements.py`.

A shallow embedding of the batching / retry / resume pipeline of
`translate_requirements.py`, together with proofs of the behavioural
properties stated in its specification.

Conventions of the embedding:
* Python lists become `List`, Python strings become `String`.
* `for` loops become structural recursions over the iterated list, with the
  loop-local mutable variables threaded as explicit arguments.
* Exceptions become `Except` values; an operation that may raise is a value
  of type `Except E A`.
* The remote service, the random jitter source and the wall clock are
  modelled as explicit oracle parameters (`replies`, `jitter`); sleeping is
  recorded in a trace instead of performed.
* Python `int` arguments that the script may receive as negative numbers are
  modelled as `Int` where the sign matters (`max_retries`), and as `Nat`
  where Python and `Nat` behaviour coincide on the reachable inputs.
-/

/-! ## Chunker: `chunk_list` (source lines 43-53)

The Python loop appends each item to `buf` and flushes `buf` into `chunks`
as soon as `len(buf) >= chunk_size`; a non-empty trailing `buf` is appended
at the end. -/

/-- Loop body of `chunk_list`: iterates over the remaining `items`, threading
the accumulated `chunks` and the current buffer `buf`. Returns the final
`(chunks, buf)` pair. -/
def chunkLoop (chunk_size : Nat) : List String → List (List String) → List String →
    List (List String) × List String
  | [], chunks, buf => (chunks, buf)
  | s :: rest, chunks, buf =>
    if chunk_size ≤ (buf ++ [s]).length then
      chunkLoop chunk_size rest (chunks ++ [buf ++ [s]]) []
    else
      chunkLoop chunk_size rest chunks (buf ++ [s])

/-- Embedding of `chunk_list(items, chunk_size)`: run the loop from empty
accumulators, then append the trailing buffer if it is non-empty
(`if buf: chunks.append(buf)`). -/
def chunk_list (items : List String) (chunk_size : Nat) : List (List String) :=
  let r := chunkLoop chunk_size items [] []
  if r.2.isEmpty then r.1 else r.1 ++ [r.2]

/-- Recursive characterisation of the chunking: repeatedly split off the
first `b` elements. Used as the specification side of the bridge lemma
`chunk_list_eq_chunksRec`. -/
def chunksRec (b : Nat) (l : List String) : List (List String) :=
  if h : l = [] ∨ b = 0 then []
  else l.take b :: chunksRec b (l.drop b)
termination_by l.length
decreasing_by
  push_neg at h
  obtain ⟨hl, hb⟩ := h
  have h1 : 0 < b := Nat.pos_of_ne_zero hb
  have h2 : 0 < l.length := List.length_pos.mpr hl
  simp only [List.length_drop]
  omega

lemma chunksRec_nil (b : Nat) : chunksRec b [] = [] := by
  rw [chunksRec]
  simp

lemma chunksRec_cons (b : Nat) (l : List String) (hnil : l ≠ []) (hb : 0 < b) :
    chunksRec b l = l.take b :: chunksRec b (l.drop b) := by
  rw [chunksRec, dif_neg]
  push_neg
  exact ⟨hnil, Nat.pos_iff_ne_zero.mp hb⟩

lemma chunkLoop_nil (b : Nat) (chunks : List (List String)) (buf : List String) :
    chunkLoop b [] chunks buf = (chunks, buf) := rfl

lemma chunkLoop_cons (b : Nat) (s : String) (rest : List String)
    (chunks : List (List String)) (buf : List String) :
    chunkLoop b (s :: rest) chunks buf =
      if b ≤ (buf ++ [s]).length then
        chunkLoop b rest (chunks ++ [buf ++ [s]]) []
      else
        chunkLoop b rest chunks (buf ++ [s]) := rfl

lemma chunkLoop_flatten (b : Nat) :
    ∀ (items : List String) (chunks : List (List String)) (buf : List String),
      (chunkLoop b items chunks buf).1.flatten ++ (chunkLoop b items chunks buf).2 =
        chunks.flatten ++ buf ++ items := by
  intro items
  induction items with
  | nil => intro chunks buf; simp [chunkLoop_nil]
  | cons s rest ih =>
    intro chunks buf
    rw [chunkLoop_cons]
    by_cases h : b ≤ (buf ++ [s]).length
    · rw [if_pos h, ih]
      simp [List.flatten_append, List.append_assoc]
    · rw [if_neg h, ih]
      simp [List.append_assoc]

lemma chunkLoop_acc (b : Nat) :
    ∀ (items : List String) (cs chunks : List (List String)) (buf : List String),
      chunkLoop b items (cs ++ chunks) buf =
        (cs ++ (chunkLoop b items chunks buf).1, (chunkLoop b items chunks buf).2) := by
  intro items
  induction items with
  | nil => intro cs chunks buf; simp [chunkLoop_nil]
  | cons s rest ih =>
    intro cs chunks buf
    rw [chunkLoop_cons, chunkLoop_cons]
    by_cases h : b ≤ (buf ++ [s]).length
    · rw [if_pos h, if_pos h, List.append_assoc, ih]
    · rw [if_neg h, if_neg h]
      exact ih cs chunks (buf ++ [s])

lemma chunkLoop_replay (b : Nat) :
    ∀ (buf items : List String) (chunks : List (List String)) (pre : List String),
      (pre ++ buf).length < b →
      chunkLoop b (buf ++ items) chunks pre = chunkLoop b items chunks (pre ++ buf) := by
  intro buf
  induction buf with
  | nil => intro items chunks pre _; simp
  | cons s rest ih =>
    intro items chunks pre hlen
    rw [List.cons_append, chunkLoop_cons]
    have hlt : ¬ b ≤ (pre ++ [s]).length := by
      simp only [List.length_append, List.length_cons, List.length_nil] at hlen ⊢
      omega
    rw [if_neg hlt, ih items chunks (pre ++ [s]) (by simpa [List.append_assoc] using hlen)]
    simp [List.append_assoc]

lemma chunkLoop_fill (b : Nat) :
    ∀ (t pre items : List String) (chunks : List (List String)),
      t ≠ [] → (pre ++ t).length = b →
      chunkLoop b (t ++ items) chunks pre = chunkLoop b items (chunks ++ [pre ++ t]) [] := by
  intro t
  induction t with
  | nil => intro pre items chunks hne _; exact absurd rfl hne
  | cons s rest ih =>
    intro pre items chunks _ hlen
    cases rest with
    | nil =>
      rw [List.cons_append, List.nil_append, chunkLoop_cons]
      have hge : b ≤ (pre ++ [s]).length := by
        simp only [List.length_append, List.length_cons, List.length_nil] at hlen ⊢
        omega
      rw [if_pos hge]
    | cons s2 rest2 =>
      rw [List.cons_append, chunkLoop_cons]
      have hlt : ¬ b ≤ (pre ++ [s]).length := by
        simp only [List.length_append, List.length_cons, List.length_nil] at hlen ⊢
        omega
      rw [if_neg hlt,
        ih (pre ++ [s]) items chunks (by simp) (by simpa [List.append_assoc] using hlen)]
      simp [List.append_assoc]

lemma chunk_list_eq_chunksRec (b : Nat) (hb : 0 < b) :
    ∀ (n : Nat) (l : List String), l.length ≤ n → chunk_list l b = chunksRec b l := by
  intro n
  induction n with
  | zero =>
    intro l hl
    have : l = [] := List.length_eq_zero.mp (Nat.le_zero.mp hl)
    subst this
    simp [chunk_list, chunkLoop_nil, chunksRec]
  | succ n ih =>
    intro l hl
    by_cases hnil : l = []
    · subst hnil; simp [chunk_list, chunkLoop_nil, chunksRec]
    · have hcond : ¬ (l = [] ∨ b = 0) := by
        push_neg
        exact ⟨hnil, Nat.pos_iff_ne_zero.mp hb⟩
      by_cases hlen : l.length < b
      · have hrep := chunkLoop_replay b l [] [] [] (by simpa using hlen)
        simp only [List.append_nil, List.nil_append] at hrep
        have hcl : chunk_list l b = [l] := by
          simp only [chunk_list, hrep, chunkLoop_nil]
          simp [List.isEmpty_iff, hnil]
        rw [hcl, chunksRec, dif_neg hcond,
          List.take_of_length_le (Nat.le_of_lt hlen),
          List.drop_eq_nil_of_le (Nat.le_of_lt hlen), chunksRec]
        simp
      · push_neg at hlen
        have htake : (l.take b).length = b := by
          rw [List.length_take]
          omega
        have htd : l.take b ++ l.drop b = l := List.take_append_drop b l
        have htne : l.take b ≠ [] := by
          intro h
          rw [h] at htake
          simp at htake
          omega
        have hfill := chunkLoop_fill b (l.take b) [] (l.drop b) [] htne (by simpa using htake)
        simp only [List.nil_append] at hfill
        have hacc := chunkLoop_acc b (l.drop b) [l.take b] [] []
        simp only [List.append_nil, List.nil_append] at hacc
        have hdl : (l.drop b).length ≤ n := by
          rw [List.length_drop]
          omega
        have hrec : chunk_list l b = l.take b :: chunk_list (l.drop b) b := by
          simp only [chunk_list]
          conv_lhs => rw [← htd]
          rw [hfill, hacc]
          by_cases hbuf : (chunkLoop b (l.drop b) [] []).2.isEmpty
          · simp [hbuf]
          · simp [hbuf]
        rw [hrec, ih (l.drop b) hdl]
        conv_rhs => rw [chunksRec]
        rw [dif_neg hcond]

/-- Claim C2: For every list of lines and every positive batch size,
concatenating the batches returned by `chunk_list`, in order, reproduces the
input exactly, and the empty input yields zero batches. -/
theorem chunk_list_partition (l : List String) (b : Nat) (hb : 0 < b) :
    (chunk_list l b).flatten = l ∧ chunk_list ([] : List String) b = [] := by
  constructor
  · have h := chunkLoop_flatten b l [] []
    simp only [List.flatten_nil, List.nil_append, List.append_nil] at h
    simp only [chunk_list]
    by_cases hbuf : (chunkLoop b l [] []).2.isEmpty
    · have h2 : (chunkLoop b l [] []).2 = [] := List.isEmpty_iff.mp hbuf
      rw [if_pos hbuf]
      rw [h2, List.append_nil] at h
      exact h
    · rw [if_neg hbuf, List.flatten_append]
      simpa using h
  · simp [chunk_list, chunkLoop_nil]

theorem chunk_list_partition_witness :
    0 < 2 ∧ ((chunk_list ["a", "b", "c"] 2).flatten = ["a", "b", "c"] ∧
      chunk_list ([] : List String) 2 = []) :=
  ⟨by decide, chunk_list_partition ["a", "b", "c"] 2 (by decide)⟩

lemma chunksRec_length (b : Nat) (hb : 0 < b) :
    ∀ (n : Nat) (l : List String), l.length ≤ n →
      (chunksRec b l).length = (l.length + b - 1) / b := by
  intro n
  induction n with
  | zero =>
    intro l hl
    have : l = [] := List.length_eq_zero.mp (Nat.le_zero.mp hl)
    subst this
    rw [chunksRec_nil]
    symm
    simp only [List.length_nil, Nat.zero_add]
    exact Nat.div_eq_of_lt (by omega)
  | succ n ih =>
    intro l hl
    by_cases hnil : l = []
    · subst hnil
      rw [chunksRec_nil]
      symm
      simp only [List.length_nil, Nat.zero_add]
      exact Nat.div_eq_of_lt (by omega)
    · have hpos : 0 < l.length := List.length_pos.mpr hnil
      rw [chunksRec_cons b l hnil hb, List.length_cons]
      have hdl : (l.drop b).length ≤ n := by
        rw [List.length_drop]
        omega
      rw [ih (l.drop b) hdl, List.length_drop]
      by_cases hlen : b ≤ l.length
      · have h1 : l.length - b + b - 1 = l.length - 1 := by omega
        have h2 : l.length + b - 1 = (l.length - 1) + b := by omega
        rw [h1, h2, Nat.add_div_right _ hb]
      · have h1 : l.length - b = 0 := by omega
        have h2 : l.length + b - 1 = (l.length - 1) + b := by omega
        rw [h1, h2, Nat.add_div_right _ hb]
        simp only [Nat.zero_add]
        rw [Nat.div_eq_of_lt (by omega), Nat.div_eq_of_lt (by omega)]

lemma chunksRec_dropLast (b : Nat) (hb : 0 < b) :
    ∀ (n : Nat) (l : List String), l.length ≤ n →
      ∀ c ∈ (chunksRec b l).dropLast, c.length = b := by
  intro n
  induction n with
  | zero =>
    intro l hl c hc
    have : l = [] := List.length_eq_zero.mp (Nat.le_zero.mp hl)
    subst this
    rw [chunksRec_nil] at hc
    simp at hc
  | succ n ih =>
    intro l hl c hc
    by_cases hnil : l = []
    · subst hnil
      rw [chunksRec_nil] at hc
      simp at hc
    · rw [chunksRec_cons b l hnil hb] at hc
      by_cases hlen : l.length ≤ b
      · have hdrop : l.drop b = [] := List.drop_eq_nil_of_le hlen
        rw [hdrop, chunksRec_nil] at hc
        simp at hc
      · push_neg at hlen
        have hdne : l.drop b ≠ [] := by
          intro h
          have := List.drop_eq_nil_iff.mp h
          omega
        have hrne : chunksRec b (l.drop b) ≠ [] := by
          rw [chunksRec_cons b (l.drop b) hdne hb]
          simp
        rw [List.dropLast_cons_of_ne_nil hrne] at hc
        rcases List.mem_cons.mp hc with h | h
        · subst h
          rw [List.length_take]
          omega
        · have hdl : (l.drop b).length ≤ n := by
            rw [List.length_drop]
            have := List.length_pos.mpr hnil
            omega
          exact ih (l.drop b) hdl c h

lemma chunksRec_getLast (b : Nat) (hb : 0 < b) :
    ∀ (n : Nat) (l : List String), l.length ≤ n →
      ∀ c, (chunksRec b l).getLast? = some c → 1 ≤ c.length ∧ c.length ≤ b := by
  intro n
  induction n with
  | zero =>
    intro l hl c hc
    have : l = [] := List.length_eq_zero.mp (Nat.le_zero.mp hl)
    subst this
    rw [chunksRec_nil] at hc
    simp at hc
  | succ n ih =>
    intro l hl c hc
    by_cases hnil : l = []
    · subst hnil
      rw [chunksRec_nil] at hc
      simp at hc
    · have hpos : 0 < l.length := List.length_pos.mpr hnil
      rw [chunksRec_cons b l hnil hb] at hc
      by_cases hlen : l.length ≤ b
      · have hdrop : l.drop b = [] := List.drop_eq_nil_of_le hlen
        rw [hdrop, chunksRec_nil] at hc
        simp only [List.getLast?_singleton, Option.some.injEq] at hc
        subst hc
        rw [List.length_take]
        omega
      · push_neg at hlen
        have hdne : l.drop b ≠ [] := by
          intro h
          have := List.drop_eq_nil_iff.mp h
          omega
        rw [chunksRec_cons b (l.drop b) hdne hb, List.getLast?_cons_cons,
          ← chunksRec_cons b (l.drop b) hdne hb] at hc
        have hdl : (l.drop b).length ≤ n := by
          rw [List.length_drop]
          omega
        exact ih (l.drop b) hdl c hc


/-- Claim C3: for every input list of length `n` and every batch size
`b ≥ 1`, `chunk_list` returns exactly `ceil(n / b) = (n + b - 1) / b`
batches; every batch except possibly the last has length exactly `b`, and
the last batch has length in `[1, b]`. -/
theorem chunk_list_shape (l : List String) (b : Nat) (hb : 0 < b) :
    (chunk_list l b).length = (l.length + b - 1) / b ∧
    (∀ c ∈ (chunk_list l b).dropLast, c.length = b) ∧
    (∀ c, (chunk_list l b).getLast? = some c → 1 ≤ c.length ∧ c.length ≤ b) := by
  rw [chunk_list_eq_chunksRec b hb l.length l (Nat.le_refl _)]
  exact ⟨chunksRec_length b hb l.length l (Nat.le_refl _),
    chunksRec_dropLast b hb l.length l (Nat.le_refl _),
    chunksRec_getLast b hb l.length l (Nat.le_refl _)⟩

theorem chunk_list_shape_witness :
    0 < 2 ∧ ((chunk_list ["a", "b", "c", "d", "e"] 2).length = (5 + 2 - 1) / 2 ∧
      (∀ c ∈ (chunk_list ["a", "b", "c", "d", "e"] 2).dropLast, c.length = 2) ∧
      (∀ c, (chunk_list ["a", "b", "c", "d", "e"] 2).getLast? = some c →
        1 ≤ c.length ∧ c.length ≤ 2)) :=
  ⟨by decide, chunk_list_shape ["a", "b", "c", "d", "e"] 2 (by decide)⟩

/-! ## Retry wrapper: `call_with_retry` (source lines 56-64)

The Python loop `for attempt in range(max_retries)` calls `fn()`; on success
it returns the value, on an exception it re-raises when
`attempt == max_retries - 1` and otherwise sleeps
`2 ** attempt + random.uniform(0, 0.5)` seconds and retries. If
`max_retries <= 0` the loop body never runs and the function falls off the
end, returning `None`.

The embedding replaces the side-effecting `fn` by an oracle
`fn : Nat → Except E A` giving the outcome of the i-th invocation, and the
random jitter by an oracle `jitter : Nat → ℚ`. The returned `RetryTrace`
records the Python-observable behaviour: the returned value (if any), the
propagated exception (if any), how many times `fn` was invoked, and the
sequence of sleep durations. -/

/-- Observable behaviour of one `call_with_retry` run. `result` is the value
returned by `return fn()` (or `none` if the function fell off the loop or
raised), `raised` is the exception propagated by the bare `raise` (if any),
`calls` counts invocations of `fn`, and `sleeps` lists the backoff waits in
seconds, in order. -/
structure RetryTrace (E A : Type) where
  result : Option A
  raised : Option E
  calls : Nat
  sleeps : List ℚ
deriving Repr, DecidableEq

/-- Loop of `call_with_retry`, with `fuel` the number of remaining loop
iterations (`max_retries - attempt`); `fuel = 0` with a pending exception is
the `attempt == max_retries - 1` re-raise case. -/
def call_with_retry_aux (fn : Nat → Except E A) (jitter : Nat → ℚ) :
    Nat → Nat → RetryTrace E A
  | _, 0 => ⟨none, none, 0, []⟩
  | attempt, fuel + 1 =>
    match fn attempt with
    | .ok a => ⟨some a, none, 1, []⟩
    | .error e =>
      if fuel = 0 then ⟨none, some e, 1, []⟩
      else
        let rest := call_with_retry_aux fn jitter (attempt + 1) fuel
        ⟨rest.result, rest.raised, rest.calls + 1,
          ((2 : ℚ) ^ attempt + jitter attempt) :: rest.sleeps⟩

/-- Embedding of `call_with_retry(fn, max_retries)` (the source default is
`max_retries = 8`). `max_retries` is an `Int` because Python allows a
non-positive count, in which case `range(max_retries)` is empty. -/
def call_with_retry (fn : Nat → Except E A) (jitter : Nat → ℚ) (max_retries : Int) :
    RetryTrace E A :=
  call_with_retry_aux fn jitter 0 max_retries.toNat

lemma call_with_retry_aux_calls_le (fn : Nat → Except E A) (jitter : Nat → ℚ) :
    ∀ (fuel attempt : Nat), (call_with_retry_aux fn jitter attempt fuel).calls ≤ fuel := by
  intro fuel
  induction fuel with
  | zero => intro attempt; simp [call_with_retry_aux]
  | succ fuel ih =>
    intro attempt
    cases hfn : fn attempt with
    | ok a => simp [call_with_retry_aux, hfn]
    | error e =>
      by_cases hf : fuel = 0
      · simp [call_with_retry_aux, hfn, hf]
      · simp only [call_with_retry_aux, hfn, hf, if_false]
        have := ih (attempt + 1)
        omega

lemma call_with_retry_aux_sleeps (fn : Nat → Except E A) (jitter : Nat → ℚ) :
    ∀ (fuel attempt : Nat) (j : Nat),
      j < (call_with_retry_aux fn jitter attempt fuel).sleeps.length →
      (call_with_retry_aux fn jitter attempt fuel).sleeps.getD j 0 =
        2 ^ (attempt + j) + jitter (attempt + j) := by
  intro fuel
  induction fuel with
  | zero =>
    intro attempt j h
    simp [call_with_retry_aux] at h
  | succ fuel ih =>
    intro attempt j h
    cases hfn : fn attempt with
    | ok a =>
      rw [call_with_retry_aux] at h
      simp [hfn] at h
    | error e =>
      by_cases hf : fuel = 0
      · rw [call_with_retry_aux] at h
        simp [hfn, hf] at h
      · simp only [call_with_retry_aux, hfn, hf, if_false] at h ⊢
        cases j with
        | zero => simp
        | succ j =>
          simp only [List.getD_cons_succ]
          rw [ih (attempt + 1) j (by simpa using h)]
          ring_nf

lemma call_with_retry_aux_raised (fn : Nat → Except E A) (jitter : Nat → ℚ) :
    ∀ (fuel attempt : Nat) (e : E),
      (call_with_retry_aux fn jitter attempt fuel).raised = some e →
      (call_with_retry_aux fn jitter attempt fuel).calls = fuel ∧
        fn (attempt + fuel - 1) = .error e := by
  intro fuel
  induction fuel with
  | zero =>
    intro attempt e h
    simp [call_with_retry_aux] at h
  | succ fuel ih =>
    intro attempt e h
    cases hfn : fn attempt with
    | ok a =>
      rw [call_with_retry_aux] at h
      simp [hfn] at h
    | error e2 =>
      by_cases hf : fuel = 0
      · rw [call_with_retry_aux] at h
        simp only [hfn, hf, if_true] at h
        simp only [Option.some.injEq] at h
        subst h
        subst hf
        refine ⟨by simp [call_with_retry_aux, hfn], ?_⟩
        simpa using hfn
      · simp only [call_with_retry_aux, hfn, hf, if_false] at h ⊢
        obtain ⟨hc, hl⟩ := ih (attempt + 1) e h
        refine ⟨by omega, ?_⟩
        have heq : attempt + 1 + fuel - 1 = attempt + (fuel + 1) - 1 := by omega
        rw [← heq]
        exact hl

lemma call_with_retry_aux_all_fail (fn : Nat → Except E A) (jitter : Nat → ℚ) :
    ∀ (fuel attempt : Nat), 0 < fuel →
      (∀ i, i < fuel → ∃ ei, fn (attempt + i) = .error ei) →
      ∃ e, (call_with_retry_aux fn jitter attempt fuel).raised = some e ∧
        (call_with_retry_aux fn jitter attempt fuel).result = none ∧
        (call_with_retry_aux fn jitter attempt fuel).calls = fuel ∧
        fn (attempt + fuel - 1) = .error e := by
  intro fuel
  induction fuel with
  | zero => intro attempt h; omega
  | succ fuel ih =>
    intro attempt _ hall
    obtain ⟨e0, he0⟩ := hall 0 (by omega)
    simp only [Nat.add_zero] at he0
    by_cases hf : fuel = 0
    · subst hf
      refine ⟨e0, by simp [call_with_retry_aux, he0], by simp [call_with_retry_aux, he0],
        by simp [call_with_retry_aux, he0], by simpa using he0⟩
    · obtain ⟨e, h1, h2, h3, h4⟩ := ih (attempt + 1) (Nat.pos_of_ne_zero hf)
        (fun i hi => by
          obtain ⟨ei, hei⟩ := hall (i + 1) (by omega)
          exact ⟨ei, by rwa [show attempt + 1 + i = attempt + (i + 1) by omega]⟩)
      refine ⟨e, ?_, ?_, ?_, ?_⟩
      · simp only [call_with_retry_aux, he0, hf, if_false]
        exact h1
      · simp only [call_with_retry_aux, he0, hf, if_false]
        exact h2
      · simp only [call_with_retry_aux, he0, hf, if_false]
        omega
      · rwa [show attempt + (fuel + 1) - 1 = attempt + 1 + fuel - 1 by omega]

lemma call_with_retry_natCast (fn : Nat → Except E A) (jitter : Nat → ℚ) (M : Nat) :
    call_with_retry fn jitter (M : Int) = call_with_retry_aux fn jitter 0 M := by
  have h : ((M : Int)).toNat = M := Int.toNat_natCast M
  rw [show call_with_retry fn jitter (M : Int) =
    call_with_retry_aux fn jitter 0 ((M : Int)).toNat from rfl, h]

/-- Claim C5: The retry wrapper invokes the wrapped operation at most `M`
times; the `j`-th wait (numbering failed attempts from 0) is exactly
`2 ^ j + jitter j`, hence lies in `[2 ^ j, 2 ^ j + 1/2)` for jitter drawn
from `[0, 1/2)`; if an exception propagates out, then all `M` attempts were
made and the propagated exception is exactly the one raised by the final
attempt, unchanged; and conversely, when `M ≥ 1` and every attempt fails,
the wrapper really does propagate the final attempt's failure — it returns
no value and does not swallow or transform the error. -/
theorem call_with_retry_spec (fn : Nat → Except E A) (jitter : Nat → ℚ) (M : Nat)
    (hj : ∀ i, 0 ≤ jitter i ∧ jitter i < 1 / 2) :
    (call_with_retry fn jitter (M : Int)).calls ≤ M ∧
    (∀ j : Nat, j < (call_with_retry fn jitter (M : Int)).sleeps.length →
      (call_with_retry fn jitter (M : Int)).sleeps.getD j 0 = 2 ^ j + jitter j ∧
      (2 : ℚ) ^ j ≤ (call_with_retry fn jitter (M : Int)).sleeps.getD j 0 ∧
      (call_with_retry fn jitter (M : Int)).sleeps.getD j 0 < 2 ^ j + 1 / 2) ∧
    (∀ e, (call_with_retry fn jitter (M : Int)).raised = some e →
      (call_with_retry fn jitter (M : Int)).calls = M ∧ fn (M - 1) = .error e) ∧
    (0 < M → (∀ i, i < M → ∃ ei, fn i = .error ei) →
      ∃ e, (call_with_retry fn jitter (M : Int)).raised = some e ∧
        (call_with_retry fn jitter (M : Int)).result = none ∧
        (call_with_retry fn jitter (M : Int)).calls = M ∧
        fn (M - 1) = .error e) := by
  have hcw := call_with_retry_natCast fn jitter M
  refine ⟨?_, ?_, ?_, ?_⟩
  · rw [hcw]
    exact call_with_retry_aux_calls_le fn jitter M 0
  · intro j h
    rw [hcw] at h ⊢
    have hs := call_with_retry_aux_sleeps fn jitter M 0 j h
    simp only [Nat.zero_add] at hs
    refine ⟨hs, ?_, ?_⟩
    · rw [hs]
      have := (hj j).1
      linarith
    · rw [hs]
      have := (hj j).2
      linarith
  · intro e h
    rw [hcw] at h ⊢
    have hr := call_with_retry_aux_raised fn jitter M 0 e h
    exact ⟨hr.1, by simpa using hr.2⟩
  · intro hM hall
    rw [hcw]
    have hfail := call_with_retry_aux_all_fail fn jitter M 0 hM
      (fun i hi => by simpa using hall i hi)
    simpa using hfail

theorem call_with_retry_spec_witness :
    (∀ i : Nat, (0 : ℚ) ≤ (fun _ : Nat => (0 : ℚ)) i ∧
      (fun _ : Nat => (0 : ℚ)) i < 1 / 2) ∧
    ((call_with_retry (fun _ => (Except.error 7 : Except Nat Nat)) (fun _ => 0)
        ((3 : Nat) : Int)).calls ≤ 3 ∧
      (∀ j : Nat, j < (call_with_retry (fun _ => (Except.error 7 : Except Nat Nat))
          (fun _ => 0) ((3 : Nat) : Int)).sleeps.length →
        (call_with_retry (fun _ => (Except.error 7 : Except Nat Nat)) (fun _ => 0)
            ((3 : Nat) : Int)).sleeps.getD j 0 = 2 ^ j + (fun _ : Nat => (0 : ℚ)) j ∧
        (2 : ℚ) ^ j ≤ (call_with_retry (fun _ => (Except.error 7 : Except Nat Nat))
            (fun _ => 0) ((3 : Nat) : Int)).sleeps.getD j 0 ∧
        (call_with_retry (fun _ => (Except.error 7 : Except Nat Nat)) (fun _ => 0)
            ((3 : Nat) : Int)).sleeps.getD j 0 < 2 ^ j + 1 / 2) ∧
      (∀ e, (call_with_retry (fun _ => (Except.error 7 : Except Nat Nat)) (fun _ => 0)
          ((3 : Nat) : Int)).raised = some e →
        (call_with_retry (fun _ => (Except.error 7 : Except Nat Nat)) (fun _ => 0)
            ((3 : Nat) : Int)).calls = 3 ∧
          (fun _ : Nat => (Except.error 7 : Except Nat Nat)) (3 - 1) = .error e) ∧
      (0 < 3 → (∀ i, i < 3 →
          ∃ ei, (fun _ : Nat => (Except.error 7 : Except Nat Nat)) i = .error ei) →
        ∃ e, (call_with_retry (fun _ => (Except.error 7 : Except Nat Nat)) (fun _ => 0)
            ((3 : Nat) : Int)).raised = some e ∧
          (call_with_retry (fun _ => (Except.error 7 : Except Nat Nat)) (fun _ => 0)
              ((3 : Nat) : Int)).result = none ∧
          (call_with_retry (fun _ => (Except.error 7 : Except Nat Nat)) (fun _ => 0)
              ((3 : Nat) : Int)).calls = 3 ∧
          (fun _ : Nat => (Except.error 7 : Except Nat Nat)) (3 - 1) = .error e)) ∧
    (call_with_retry (fun _ => (Except.error 7 : Except Nat Nat)) (fun _ => 0)
        ((3 : Nat) : Int)).raised = some 7 ∧
    (call_with_retry (fun _ => (Except.error 7 : Except Nat Nat)) (fun _ => 0)
        ((3 : Nat) : Int)).result = none :=
  ⟨fun _ => ⟨le_refl 0, by norm_num⟩,
    call_with_retry_spec (fun _ => (Except.error 7 : Except Nat Nat)) (fun _ => 0) 3
      (fun _ => ⟨le_refl 0, by norm_num⟩),
    by decide, by decide⟩

/-- Claim C10: Called with a non-positive maximum attempt count, the retry
wrapper never invokes the wrapped operation, performs no waits, raises
nothing, and returns `None` (the loop body of `range(max_retries)` never
runs and the function falls off its end). -/
theorem call_with_retry_nonpos (fn : Nat → Except E A) (jitter : Nat → ℚ)
    (M : Int) (h : M ≤ 0) :
    call_with_retry fn jitter M = ⟨none, none, 0, []⟩ := by
  rw [call_with_retry, Int.toNat_of_nonpos h]
  rfl

theorem call_with_retry_nonpos_witness :
    ((-3 : Int) ≤ 0 ∧
      call_with_retry (fun _ => (Except.error 7 : Except Nat Nat)) (fun _ => 0) (-3) =
        ⟨none, none, 0, []⟩) ∧
    ((0 : Int) ≤ 0 ∧
      call_with_retry (fun _ => (Except.error 7 : Except Nat Nat)) (fun _ => 0) 0 =
        ⟨none, none, 0, []⟩) :=
  ⟨⟨by decide, call_with_retry_nonpos _ _ (-3) (by decide)⟩,
    ⟨by decide, call_with_retry_nonpos _ _ 0 (by decide)⟩⟩

/-! ## Translation client: `translate_batch` (source lines 67-110)

The inner closure `_do` performs the network call, decodes the JSON body and
reads its `translations` field — any of these steps may raise, which the
embedding folds into a `remote` error supplied by the per-attempt oracle
`replies`. On a successfully decoded reply `_do` checks
`len(out) != len(lines)` and raises `RuntimeError("Batch size mismatch ...")`
on disagreement; otherwise it returns the translations with internal
newlines collapsed to spaces and surrounding whitespace stripped.
`translate_batch` runs `_do` under `call_with_retry` with the default
`max_retries = 8`. -/

/-- Failures a translation attempt can raise: `remote` covers network,
decode and field-access exceptions; `mismatch` is the
`RuntimeError("Batch size mismatch: in=.. out=..")` with the two counts. -/
inductive TransError where
  | remote (msg : String)
  | mismatch (inN outN : Nat)
deriving Repr, DecidableEq

/-- Embedding of `t.replace("\x5cn", " ").strip()`. -/
def normalize_line (t : String) : String :=
  (t.replace "\n" " ").trim

/-- One attempt of `_do`, given the decoded reply of this attempt's network
call: propagate a remote failure, raise a Batch Size Mismatch when the
`translations` array length differs from the input length, and otherwise
return the normalized translations. -/
def do_attempt (lines : List String) (reply : Except TransError (List String)) :
    Except TransError (List String) :=
  match reply with
  | .error e => .error e
  | .ok translations =>
    if translations.length ≠ lines.length then
      .error (.mismatch lines.length translations.length)
    else
      .ok (translations.map normalize_line)

/-- Embedding of `translate_batch(client, model, lines)`: run `_do` under
`call_with_retry` with the source's default `max_retries = 8`. The oracle
`replies i` is the decoded reply of the i-th attempt's network call. -/
def translate_batch (lines : List String) (replies : Nat → Except TransError (List String))
    (jitter : Nat → ℚ) : RetryTrace TransError (List String) :=
  call_with_retry (fun i => do_attempt lines (replies i)) jitter 8

lemma call_with_retry_aux_all_error (fn : Nat → Except E A) (jitter : Nat → ℚ) (e : E)
    (hfn : ∀ i, fn i = .error e) :
    ∀ (fuel attempt : Nat), 0 < fuel →
      (call_with_retry_aux fn jitter attempt fuel).raised = some e ∧
      (call_with_retry_aux fn jitter attempt fuel).calls = fuel := by
  intro fuel
  induction fuel with
  | zero => intro attempt h; omega
  | succ fuel ih =>
    intro attempt _
    by_cases hf : fuel = 0
    · subst hf
      simp [call_with_retry_aux, hfn attempt]
    · have := ih (attempt + 1) (Nat.pos_of_ne_zero hf)
      simp only [call_with_retry_aux, hfn attempt, hf, if_false]
      exact ⟨this.1, by omega⟩

/-- Claim C4: If the decoded reply's `translations` array length differs from
the batch length `N`, the attempt raises a Batch Size Mismatch (it never
returns a truncated or padded list); when every attempt's reply has the
wrong length the failure survives all 8 retry attempts and propagates as
the run's fatal error; and the failure is retryable: if a later attempt
returns a reply of the correct length, `translate_batch` succeeds. -/
theorem translate_batch_mismatch (lines ts good : List String) (jitter : Nat → ℚ)
    (hts : ts.length ≠ lines.length) (hgood : good.length = lines.length) :
    do_attempt lines (.ok ts) = .error (.mismatch lines.length ts.length) ∧
    (translate_batch lines (fun _ => .ok ts) jitter).raised =
      some (.mismatch lines.length ts.length) ∧
    (translate_batch lines (fun _ => .ok ts) jitter).calls = 8 ∧
    (translate_batch lines (fun i => if i = 0 then .ok ts else .ok good) jitter).result =
      some (good.map normalize_line) := by
  have hdo : do_attempt lines (.ok ts) = .error (.mismatch lines.length ts.length) := by
    simp [do_attempt, hts]
  have hall := call_with_retry_aux_all_error
    (fun i => do_attempt lines ((fun _ => Except.ok ts) i)) jitter
    (.mismatch lines.length ts.length) (fun i => hdo) 8 0 (by omega)
  refine ⟨hdo, ?_, ?_, ?_⟩
  · rw [translate_batch, show ((8 : Int)) = ((8 : Nat) : Int) from rfl,
      call_with_retry_natCast]
    exact hall.1
  · rw [translate_batch, show ((8 : Int)) = ((8 : Nat) : Int) from rfl,
      call_with_retry_natCast]
    exact hall.2
  · rw [translate_batch, show ((8 : Int)) = ((8 : Nat) : Int) from rfl,
      call_with_retry_natCast]
    have h0 : do_attempt lines ((fun i => if i = 0 then Except.ok ts else Except.ok good) 0) =
        .error (.mismatch lines.length ts.length) := by
      simpa using hdo
    have h1 : do_attempt lines ((fun i => if i = 0 then Except.ok ts else Except.ok good) 1) =
        .ok (good.map normalize_line) := by
      simp [do_attempt, hgood]
    rw [call_with_retry_aux, h0]
    simp only [if_false, show (7 : Nat) ≠ 0 by omega]
    rw [call_with_retry_aux, h1]

theorem translate_batch_mismatch_witness :
    (([] : List String).length ≠ (["a"] : List String).length ∧
      (["x"] : List String).length = (["a"] : List String).length) ∧
    (do_attempt ["a"] (.ok []) = .error (.mismatch (["a"] : List String).length
        ([] : List String).length) ∧
      (translate_batch ["a"] (fun _ => .ok []) (fun _ => 0)).raised =
        some (.mismatch (["a"] : List String).length ([] : List String).length) ∧
      (translate_batch ["a"] (fun _ => .ok []) (fun _ => 0)).calls = 8 ∧
      (translate_batch ["a"] (fun i => if i = 0 then .ok [] else .ok ["x"])
          (fun _ => 0)).result = some ((["x"] : List String).map normalize_line)) :=
  ⟨⟨by decide, by decide⟩,
    translate_batch_mismatch ["a"] [] ["x"] (fun _ => 0) (by decide) (by decide)⟩

/-! ## Line reader: `read_lines` (source lines 38-40)

`read_lines` does `path.read_text(encoding="utf-8", errors="ignore")`
followed by `.splitlines()`.

UTF-8 byte-level parsing is abstracted into a pre-tokenised stream of runs:
a `ByteRun.valid s` is a maximal well-formed UTF-8 span (already decoded)
and a `ByteRun.malformed n` is a maximal ill-formed byte sequence of `n`
bytes. The codec error handler decides what a malformed run contributes to
the decoded text: `errors="strict"` would raise, `errors="replace"`
contributes one replacement character per malformed sequence, and the
source's `errors="ignore"` contributes nothing (the bytes are dropped).

`str.splitlines` splits at every Python line boundary: `"\x5cn"`, `"\x5cr\x5cn"`,
`"\x5cr"`, `"\x5cv"` (`\x5cx0b`), `"\x5cf"` (`\x5cx0c`), `"\x5cx1c"`, `"\x5cx1d"`, `"\x5cx1e"`,
`"\x5cx85"`, `"\x5cu2028"` and `"\x5cu2029"`; it emits no trailing empty line for
text ending in a line break. -/

/-- The characters `str.splitlines` treats as line boundaries (with `"\x5cr\x5cn"`
additionally consumed as one boundary). -/
def isLineBreak (c : Char) : Bool :=
  c == '\n' || c == '\r' || c == '\x0b' || c == '\x0c' || c == '\x1c' ||
  c == '\x1d' || c == '\x1e' || c == '\x85' || c == '\u2028' || c == '\u2029'

/-- Loop of `str.splitlines`: `cur` is the current line accumulated in
reverse. At end of input a non-empty `cur` is emitted as a final line; a
line-boundary character always terminates the current line, with `"\x5cr\x5cn"`
consumed as a single boundary. -/
def splitlinesAux (cur : List Char) : List Char → List (List Char)
  | [] => if cur.isEmpty then [] else [cur.reverse]
  | '\r' :: '\n' :: rest => cur.reverse :: splitlinesAux [] rest
  | c :: rest =>
    if isLineBreak c then cur.reverse :: splitlinesAux [] rest
    else splitlinesAux (c :: cur) rest

/-- Embedding of `str.splitlines()`. -/
def splitlines (s : String) : List String :=
  (splitlinesAux [] s.data).map fun cs => String.mk cs

/-- A maximal run of the input byte stream: either a well-formed UTF-8 span
(given by its decoded text) or an ill-formed sequence of `n` bytes. -/
inductive ByteRun where
  | valid (s : String)
  | malformed (n : Nat)
deriving Repr, DecidableEq

/-- Whether a run is a well-formed span. -/
def ByteRun.isValid : ByteRun → Bool
  | .valid _ => true
  | .malformed _ => false

/-- UTF-8 decoding with an error handler: each malformed sequence
contributes `onErr` to the decoded text (`""` for `errors="ignore"`, the
replacement character for `errors="replace"`). -/
def decodeWith (onErr : String) : List ByteRun → String
  | [] => ""
  | .valid s :: rest => s ++ decodeWith onErr rest
  | .malformed _ :: rest => onErr ++ decodeWith onErr rest

/-- Embedding of `read_lines`: decode with `errors="ignore"` and split into
lines. Total: no byte stream makes it raise. -/
def read_lines (runs : List ByteRun) : List String :=
  splitlines (decodeWith "" runs)

/-- Embedding of `"\x5cn".join(out_lines)`. -/
def joinLines : List String → String
  | [] => ""
  | [s] => s
  | s :: rest@(_ :: _) => s ++ "\n" ++ joinLines rest

lemma joinLines_single (s : String) : joinLines [s] = s := by
  rw [joinLines]

lemma joinLines_cons2 (s t : String) (rest : List String) :
    joinLines (s :: t :: rest) = s ++ "\n" ++ joinLines (t :: rest) := by
  rw [joinLines]

lemma str_empty_append (s : String) : "" ++ s = s :=
  String.ext (by simp [String.data_append])

lemma stringMk_data (s : String) : String.mk s.data = s := by
  cases s
  rfl

lemma splitlinesAux_nil (cur : List Char) :
    splitlinesAux cur [] = if cur.isEmpty then [] else [cur.reverse] := rfl

lemma splitlinesAux_newline (cur : List Char) (rest : List Char) :
    splitlinesAux cur ('\n' :: rest) = cur.reverse :: splitlinesAux [] rest := rfl

set_option maxHeartbeats 1600000 in
lemma splitlinesAux_cons_other (cur : List Char) (c : Char) (rest : List Char)
    (h : isLineBreak c = false) :
    splitlinesAux cur (c :: rest) = splitlinesAux (c :: cur) rest := by
  rw [splitlinesAux.eq_def]
  split
  · simp_all
  · simp_all [isLineBreak]
  · simp_all

lemma splitlinesAux_chars :
    ∀ (cs cur rest : List Char), (∀ c ∈ cs, isLineBreak c = false) →
      splitlinesAux cur (cs ++ rest) = splitlinesAux (cs.reverse ++ cur) rest := by
  intro cs
  induction cs with
  | nil => intro cur rest _; simp
  | cons c cs ih =>
    intro cur rest h
    have hc := h c (List.mem_cons_self c cs)
    rw [List.cons_append, splitlinesAux_cons_other cur c _ hc,
      ih (c :: cur) rest (fun x hx => h x (List.mem_cons_of_mem c hx))]
    simp

lemma decodeWith_ignore_filter :
    ∀ runs : List ByteRun, decodeWith "" runs = decodeWith "" (runs.filter ByteRun.isValid) := by
  intro runs
  induction runs with
  | nil => rfl
  | cons r rest ih =>
    cases r with
    | valid s =>
      rw [show (ByteRun.valid s :: rest).filter ByteRun.isValid =
        ByteRun.valid s :: rest.filter ByteRun.isValid from List.filter_cons_of_pos rfl]
      show s ++ decodeWith "" rest = s ++ decodeWith "" (rest.filter ByteRun.isValid)
      rw [ih]
    | malformed n =>
      rw [show (ByteRun.malformed n :: rest).filter ByteRun.isValid =
        rest.filter ByteRun.isValid from List.filter_cons_of_neg (by simp [ByteRun.isValid])]
      show "" ++ decodeWith "" rest = _
      rw [str_empty_append, ih]

lemma splitlines_joinLines :
    ∀ lines : List String, lines ≠ [] →
      (∀ l ∈ lines, ∀ c ∈ l.data, isLineBreak c = false) →
      splitlines (joinLines lines ++ "\n") = lines := by
  intro lines
  induction lines with
  | nil => intro h _; exact absurd rfl h
  | cons l rest ih =>
    intro _ hchars
    have hl := hchars l (List.mem_cons_self l rest)
    cases rest with
    | nil =>
      rw [joinLines_single]
      have hdata : (l ++ "\n").data = l.data ++ ['\n'] := by
        rw [String.data_append]
      rw [splitlines, hdata, splitlinesAux_chars l.data [] ['\n'] hl,
        List.append_nil, splitlinesAux_newline, splitlinesAux_nil]
      simp [stringMk_data]
    | cons l2 rest2 =>
      have hdata : ((l ++ "\n" ++ joinLines (l2 :: rest2)) ++ "\n").data =
          l.data ++ ('\n' :: ((joinLines (l2 :: rest2)).data ++ ['\n'])) := by
        simp only [String.data_append]
        simp [show ("\n" : String).data = ['\n'] from rfl]
      have hrec := ih (by simp) (fun x hx => hchars x (List.mem_cons_of_mem l hx))
      rw [joinLines_cons2, splitlines, hdata, splitlinesAux_chars l.data [] _ hl,
        List.append_nil, splitlinesAux_newline]
      rw [splitlines] at hrec
      have hdata2 : (joinLines (l2 :: rest2) ++ "\n").data =
          (joinLines (l2 :: rest2)).data ++ ['\n'] := by
        rw [String.data_append]
      rw [hdata2] at hrec
      simp only [List.map_cons, List.reverse_reverse, stringMk_data, hrec]

/-- Counterexample for claim C8: The code decodes with `errors="ignore"`, not
`errors="replace"`: on the byte stream `valid "a", malformed, valid "b"` it
yields the line `"ab"` (the malformed sequence dropped), whereas replacing
malformed sequences would yield `"a� b"` without the space — a
different result. So the claim that malformed byte sequences are
*replaced* is false of the code. -/
theorem read_lines_replace_counterexample :
    read_lines [.valid "a", .malformed 1, .valid "b"] = ["ab"] ∧
    splitlines (decodeWith "�" [.valid "a", .malformed 1, .valid "b"]) = ["a�b"] ∧
    (["ab"] : List String) ≠ ["a�b"] :=
  ⟨by decide, by decide, by decide⟩

/-- Amended claim C8: The Line Reader never aborts on a decoding error:
malformed byte sequences are *ignored* (dropped, as by `errors="ignore"`)
rather than raising a fatal error — reading any byte stream gives the same
lines as reading just its well-formed runs — and a final newline in the
file does not produce a trailing empty line: a file holding lines free of
every line-boundary character, each terminated by `"\n"`, reads back as
exactly those lines. -/
theorem read_lines_ignore_spec (runs : List ByteRun) (lines : List String)
    (hne : lines ≠ [])
    (hchars : ∀ l ∈ lines, ∀ c ∈ l.data, isLineBreak c = false) :
    read_lines runs = read_lines (runs.filter ByteRun.isValid) ∧
    splitlines (joinLines lines ++ "\n") = lines := by
  refine ⟨?_, splitlines_joinLines lines hne hchars⟩
  rw [read_lines, read_lines, decodeWith_ignore_filter]

theorem read_lines_ignore_spec_witness :
    ((["x", "y"] : List String) ≠ [] ∧
      (∀ l ∈ (["x", "y"] : List String), ∀ c ∈ l.data, isLineBreak c = false)) ∧
    (read_lines [.valid "x\ny", .malformed 2] =
        read_lines (([.valid "x\ny", .malformed 2] : List ByteRun).filter ByteRun.isValid) ∧
      splitlines (joinLines ["x", "y"] ++ "\n") = ["x", "y"]) :=
  ⟨⟨by decide, by decide⟩,
    read_lines_ignore_spec [.valid "x\ny", .malformed 2] ["x", "y"] (by decide) (by decide)⟩

/-! ## Orchestrator: `main` (source lines 113-150)

`main` reads the input lines, applies the resume logic (lines 127-135),
slices the remaining lines, chunks them, and loops over the chunks: an
all-blank batch is passed through as empty strings without any remote call,
any other batch goes through `translate_batch`; after each batch the Output
File is rewritten in full (`out_path.write_text("\x5cn".join(out_lines)+"\x5cn")`).
An exception propagating out of `translate_batch` aborts `main` before the
failing batch's write.

The per-batch translation is abstracted by an oracle
`translate : List String → Except TransError (List String)` giving the
outcome of the whole retried `translate_batch` call for that batch
(`.error e` when the exception `e` survives all retries). The pre-existing
Output File is modelled by its decoded text (`none` when absent). -/

/-- Embedding of `all(not x.strip() for x in batch)`: `x.strip()` is falsy
exactly when every character of `x` is whitespace (in particular for the
empty string). -/
def is_all_blank (batch : List String) : Bool :=
  batch.all fun x => x.data.all Char.isWhitespace

/-- Content written by one checkpoint: `"\x5cn".join(out_lines) + "\x5cn"`. -/
def renderOut (out_lines : List String) : String :=
  joinLines out_lines ++ "\n"

/-- Observable outcome of the orchestration loop: the in-memory accumulator
`out_lines`, the Output File content (`none` when absent and never written),
the batches passed to `translate_batch` (each one remote-call work), and the
fatal error that aborted the run, if any. -/
structure RunResult where
  out_lines : List String
  file : Option String
  calls : List (List String)
  err : Option TransError
deriving Repr, DecidableEq

/-- Loop of `main` over the chunks (source lines 140-148). -/
def processChunks (translate : List String → Except TransError (List String)) :
    List (List String) → List String → Option String → RunResult
  | [], out, file => ⟨out, file, [], none⟩
  | batch :: rest, out, file =>
    if is_all_blank batch then
      processChunks translate rest (out ++ batch.map fun _ => "")
        (some (renderOut (out ++ batch.map fun _ => "")))
    else
      match translate batch with
      | .error e => ⟨out, file, [batch], some e⟩
      | .ok tr =>
        let r := processChunks translate rest (out ++ tr) (some (renderOut (out ++ tr)))
        ⟨r.out_lines, r.file, batch :: r.calls, r.err⟩

/-- Resume logic of `main` (source lines 127-135): the derived `done` count
and initial accumulator. `done = len(read_lines(out_path))` when `--resume`
is set and the Output File exists, else 0. -/
def startupState (resume : Bool) (out_file : Option String) : Nat × List String :=
  match out_file with
  | some c => if resume then ((splitlines c).length, splitlines c) else (0, [])
  | none => (0, [])

/-- Embedding of `main` after argument parsing. -/
def mainRun (src_lines : List String) (batch_size : Nat) (resume : Bool)
    (out_file : Option String)
    (translate : List String → Except TransError (List String)) : RunResult :=
  let st := startupState resume out_file
  let remaining := src_lines.drop st.1
  let chunks := chunk_list remaining batch_size
  processChunks translate chunks st.2 out_file

lemma processChunks_nil (translate : List String → Except TransError (List String))
    (out : List String) (file : Option String) :
    processChunks translate [] out file = ⟨out, file, [], none⟩ := rfl

lemma processChunks_cons (translate : List String → Except TransError (List String))
    (batch : List String) (rest : List (List String)) (out : List String)
    (file : Option String) :
    processChunks translate (batch :: rest) out file =
      if is_all_blank batch then
        processChunks translate rest (out ++ batch.map fun _ => "")
          (some (renderOut (out ++ batch.map fun _ => "")))
      else
        match translate batch with
        | .error e => ⟨out, file, [batch], some e⟩
        | .ok tr =>
          let r := processChunks translate rest (out ++ tr) (some (renderOut (out ++ tr)))
          ⟨r.out_lines, r.file, batch :: r.calls, r.err⟩ := rfl

/-- Claim C6: A batch whose lines are all blank or whitespace-only is passed
through without any remote call: the loop step for it invokes no
translation and appends an equal-length sequence of empty strings to the
accumulator before checkpointing. In particular a run on just that batch
performs zero translation calls and outputs `batch.length` empty strings. -/
theorem blank_batch_passthrough (translate : List String → Except TransError (List String))
    (batch : List String) (rest : List (List String)) (out : List String)
    (file : Option String) (h : is_all_blank batch = true) :
    processChunks translate (batch :: rest) out file =
      processChunks translate rest (out ++ List.replicate batch.length "")
        (some (renderOut (out ++ List.replicate batch.length ""))) ∧
    (processChunks translate [batch] out file).calls = [] ∧
    (processChunks translate [batch] out file).out_lines =
      out ++ List.replicate batch.length "" := by
  have hmap : (batch.map fun _ => ("" : String)) = List.replicate batch.length "" := by
    simp
  refine ⟨?_, ?_, ?_⟩
  · rw [processChunks_cons, if_pos h, hmap]
  · rw [processChunks_cons, if_pos h, hmap, processChunks_nil]
  · rw [processChunks_cons, if_pos h, hmap, processChunks_nil]

theorem blank_batch_passthrough_witness :
    is_all_blank ["", "   ", ""] = true ∧
    (processChunks (fun _ => .error (.remote "down")) [["", "   ", ""]] [] none).calls = [] ∧
    (processChunks (fun _ => .error (.remote "down")) [["", "   ", ""]] [] none).out_lines =
      ["", "", ""] :=
  ⟨by decide,
    (blank_batch_passthrough (fun _ => .error (.remote "down")) ["", "   ", ""] [] [] none
      (by decide)).2.1,
    by
      have := (blank_batch_passthrough (fun _ => .error (.remote "down")) ["", "   ", ""] [] []
        none (by decide)).2.2
      simpa using this⟩

/-- Claim C7: When the resume-derived `done` count equals the input line
count, the run performs zero translation calls, leaves the Output File
unchanged, and finishes without error: the remaining slice is empty, so the
chunk list is empty and the batch loop body never executes. -/
theorem resume_complete_noop (src : List String) (batch_size : Nat) (c : String)
    (translate : List String → Except TransError (List String))
    (h : (splitlines c).length = src.length) :
    (mainRun src batch_size true (some c) translate).calls = [] ∧
    (mainRun src batch_size true (some c) translate).file = some c ∧
    (mainRun src batch_size true (some c) translate).err = none ∧
    (mainRun src batch_size true (some c) translate).out_lines = splitlines c := by
  have hmain : mainRun src batch_size true (some c) translate =
      processChunks translate (chunk_list (src.drop (splitlines c).length) batch_size)
        (splitlines c) (some c) := rfl
  rw [hmain, h, List.drop_length]
  rw [show chunk_list [] batch_size = [] from rfl, processChunks_nil]
  exact ⟨rfl, rfl, rfl, rfl⟩

theorem resume_complete_noop_witness :
    (splitlines "x\ny\n").length = (["a", "b"] : List String).length ∧
    ((mainRun ["a", "b"] 120 true (some "x\ny\n")
        (fun _ => .error (.remote "down"))).calls = [] ∧
      (mainRun ["a", "b"] 120 true (some "x\ny\n")
        (fun _ => .error (.remote "down"))).file = some "x\ny\n" ∧
      (mainRun ["a", "b"] 120 true (some "x\ny\n")
        (fun _ => .error (.remote "down"))).err = none ∧
      (mainRun ["a", "b"] 120 true (some "x\ny\n")
        (fun _ => .error (.remote "down"))).out_lines = splitlines "x\ny\n") :=
  ⟨by decide,
    resume_complete_noop ["a", "b"] 120 "x\ny\n" (fun _ => .error (.remote "down"))
      (by decide)⟩

/-- Counterexample for claim C9: The code does not enforce `done ≤ total`: with
input `["x"]` (total = 1) and a pre-existing Output File of two lines, a
`--resume` run derives `done = 2 > 1 = total`, so the claimed startup
invariant `0 ≤ done ≤ total` is violated by a reachable startup state. -/
theorem startup_done_exceeds_total :
    (startupState true (some "a\nb\n")).1 = 2 ∧
    (["x"] : List String).length = 1 ∧
    ¬ ((startupState true (some "a\nb\n")).1 ≤ (["x"] : List String).length) :=
  ⟨by decide, by decide, by decide⟩

/-- Amended claim C9: At startup, `done` is the line count of the existing
Output File when resuming and 0 otherwise, so `0 ≤ done` always holds, and
`done ≤ total` holds provided the existing Output File has at most as many
lines as the input (the code does not clamp or verify this; an over-long
Output File yields `done > total`). -/
theorem startup_done_bounds (src : List String) (resume : Bool) (out_file : Option String)
    (h : ∀ c, out_file = some c → (splitlines c).length ≤ src.length) :
    0 ≤ (startupState resume out_file).1 ∧
    (startupState resume out_file).1 ≤ src.length ∧
    (resume = false → (startupState resume out_file).1 = 0) ∧
    (out_file = none → (startupState resume out_file).1 = 0) := by
  cases out_file with
  | none => simp [startupState]
  | some c =>
    cases resume with
    | false => simp [startupState]
    | true =>
      refine ⟨Nat.zero_le _, ?_, by simp, by simp⟩
      simpa [startupState] using h c rfl

theorem startup_done_bounds_witness :
    (∀ c, (some "a\n" : Option String) = some c → (splitlines c).length ≤
      (["p", "q"] : List String).length) ∧
    (0 ≤ (startupState true (some "a\n")).1 ∧
      (startupState true (some "a\n")).1 ≤ (["p", "q"] : List String).length ∧
      (true = false → (startupState true (some "a\n")).1 = 0) ∧
      ((some "a\n" : Option String) = none → (startupState true (some "a\n")).1 = 0)) :=
  ⟨fun c hc => by
      cases hc
      decide,
    startup_done_bounds ["p", "q"] true (some "a\n")
      (fun c hc => by
        cases hc
        decide)⟩

lemma processChunks_cons_error (translate : List String → Except TransError (List String))
    (batch : List String) (rest : List (List String)) (out : List String)
    (file : Option String) (e2 : TransError)
    (hb : ¬ is_all_blank batch = true) (htr : translate batch = .error e2) :
    processChunks translate (batch :: rest) out file = ⟨out, file, [batch], some e2⟩ := by
  rw [processChunks_cons, if_neg hb, htr]

lemma processChunks_cons_ok (translate : List String → Except TransError (List String))
    (batch : List String) (rest : List (List String)) (out : List String)
    (file : Option String) (tr : List String)
    (hb : ¬ is_all_blank batch = true) (htr : translate batch = .ok tr) :
    processChunks translate (batch :: rest) out file =
      ⟨(processChunks translate rest (out ++ tr) (some (renderOut (out ++ tr)))).out_lines,
        (processChunks translate rest (out ++ tr) (some (renderOut (out ++ tr)))).file,
        batch :: (processChunks translate rest (out ++ tr) (some (renderOut (out ++ tr)))).calls,
        (processChunks translate rest (out ++ tr) (some (renderOut (out ++ tr)))).err⟩ := by
  rw [processChunks_cons, if_neg hb, htr]

/-- Claim C1: If the batch loop aborts with a propagated error `e`, then the
chunk list splits as `pre ++ fail :: post` where every batch of `pre`
succeeded (blank pass-through or successful translation), the failing batch
`fail` is the one whose translation raised `e`, and: the accumulator holds
exactly the initial lines plus the outputs of the successful prefix `pre` —
nothing from the failing batch or any later batch — while the Output File
is exactly the last successful checkpoint (the render of that accumulator),
or the untouched initial file when the failure hit the very first batch. -/
theorem run_aborts_on_fatal_failure (translate : List String → Except TransError (List String))
    (chunks : List (List String)) (out0 : List String) (file0 : Option String) (e : TransError)
    (h : (processChunks translate chunks out0 file0).err = some e) :
    ∃ pre fail post, chunks = pre ++ fail :: post ∧
      is_all_blank fail = false ∧
      translate fail = .error e ∧
      (∀ b ∈ pre, is_all_blank b = true ∨ ∃ tr, translate b = .ok tr) ∧
      (processChunks translate chunks out0 file0).out_lines =
        out0 ++ (pre.map fun b =>
          if is_all_blank b then List.replicate b.length ""
          else (translate b).toOption.getD []).flatten ∧
      (processChunks translate chunks out0 file0).file =
        (if pre = [] then file0
         else some (renderOut ((processChunks translate chunks out0 file0).out_lines))) := by
  induction chunks generalizing out0 file0 with
  | nil =>
    rw [processChunks_nil] at h
    simp at h
  | cons batch rest ih =>
    by_cases hb : is_all_blank batch = true
    · rw [processChunks_cons, if_pos hb] at h ⊢
      obtain ⟨pre, fail, post, hsplit, hfb, hfe, hpre, hout, hfile⟩ :=
        ih (out0 ++ batch.map fun _ => "")
          (some (renderOut (out0 ++ batch.map fun _ => ""))) h
      refine ⟨batch :: pre, fail, post, by rw [List.cons_append, hsplit], hfb, hfe, ?_, ?_, ?_⟩
      · intro b hbm
        rcases List.mem_cons.mp hbm with hbb | hbm2
        · subst hbb
          exact Or.inl hb
        · exact hpre b hbm2
      · rw [hout]
        simp only [List.map_cons, List.flatten_cons, if_pos hb]
        simp [List.append_assoc]
      · rw [hfile]
        by_cases hpre0 : pre = []
        · subst hpre0
          rw [if_pos rfl, if_neg (by simp : ¬(batch :: ([] : List (List String)) = []))]
          rw [hout]
          simp
        · rw [if_neg hpre0, if_neg (by simp : ¬(batch :: pre = []))]
    · cases htr : translate batch with
      | error e2 =>
        rw [processChunks_cons_error translate batch rest out0 file0 e2 hb htr] at h ⊢
        have he : e2 = e := by simpa using h
        subst he
        refine ⟨[], batch, rest, rfl, by simpa using hb, htr, ?_, by simp, by simp⟩
        intro b hbm
        simp at hbm
      | ok tr =>
        rw [processChunks_cons_ok translate batch rest out0 file0 tr hb htr] at h ⊢
        obtain ⟨pre, fail, post, hsplit, hfb, hfe, hpre, hout, hfile⟩ :=
          ih (out0 ++ tr) (some (renderOut (out0 ++ tr))) (by simpa using h)
        refine ⟨batch :: pre, fail, post, by rw [List.cons_append, hsplit], hfb, hfe, ?_, ?_, ?_⟩
        · intro b hbm
          rcases List.mem_cons.mp hbm with hbb | hbm2
          · subst hbb
            exact Or.inr ⟨tr, htr⟩
          · exact hpre b hbm2
        · show (processChunks translate rest (out0 ++ tr)
              (some (renderOut (out0 ++ tr)))).out_lines = _
          rw [hout]
          simp only [List.map_cons, List.flatten_cons, if_neg hb, htr]
          simp [List.append_assoc, Except.toOption]
        · show (processChunks translate rest (out0 ++ tr)
              (some (renderOut (out0 ++ tr)))).file = _
          rw [hfile]
          by_cases hpre0 : pre = []
          · subst hpre0
            rw [if_pos rfl, if_neg (by simp : ¬(batch :: ([] : List (List String)) = []))]
            show _ = some (renderOut (processChunks translate rest (out0 ++ tr)
              (some (renderOut (out0 ++ tr)))).out_lines)
            rw [hout]
            simp
          · rw [if_neg hpre0, if_neg (by simp : ¬(batch :: pre = []))]

/-- Translation oracle that always fails, used by the abort witness. -/
def failTranslate : List String → Except TransError (List String) :=
  fun _ => .error (.remote "boom")

theorem run_aborts_on_fatal_failure_witness :
    (processChunks failTranslate [["a"]] [] none).err = some (.remote "boom") ∧
    (∃ pre fail post, ([["a"]] : List (List String)) = pre ++ fail :: post ∧
      is_all_blank fail = false ∧
      failTranslate fail = .error (.remote "boom") ∧
      (∀ b ∈ pre, is_all_blank b = true ∨ ∃ tr, failTranslate b = .ok tr) ∧
      (processChunks failTranslate [["a"]] [] none).out_lines =
        [] ++ (pre.map fun b =>
          if is_all_blank b then List.replicate b.length ""
          else (failTranslate b).toOption.getD []).flatten ∧
      (processChunks failTranslate [["a"]] [] none).file =
        (if pre = [] then none
         else some (renderOut ((processChunks failTranslate [["a"]] [] none).out_lines)))) :=
  ⟨by decide,
    run_aborts_on_fatal_failure failTranslate [["a"]] [] none (.remote "boom") (by decide)⟩
